import Mathlib

/-!
# Verification of the rawspeed low-level bit I/O engine

Shallow embedding of the rawspeed bit-stream reader/writer core:

* the word-swapped (MSB16) bit vacuumer and bit streamer
  (modelled from the specification; pinned against the literal test
  vectors of test/librawspeed/bitstreams/BitVacuumerMSB16Test.cpp);
* the JPEG byte-stuffed fillCache algorithm, translated from
  src/librawspeed/io/BitStreamerJPEG.h;
* the strip-size validation control flow of
  src/librawspeed/decoders/OrfDecoder.cpp (decodeRawInternal).

Machine integers are modelled as Nat with explicit bit operations;
the 64-bit cache register keeps its value as a Nat below 2^64.
-/

namespace Rawspeed

/-! ## Bit sequences, MSB-first

The bit engine is MSB-first: a value of width len is written and read
most-significant bit first.  We model bit streams as lists of Bool.
-/

/-- The len bits of v, most-significant first (bit len-1 of v comes first). -/
def natBitsMSB (v : Nat) (len : Nat) : List Bool :=
  (List.range len).map fun i => v.testBit (len - 1 - i)

/-- Interpret a list of bits, most-significant first, as a Nat. -/
def bitsToNatMSB : List Bool → Nat
  | [] => 0
  | b :: rest => (if b then 1 else 0) * 2 ^ rest.length + bitsToNatMSB rest

/-- The 8 bits of one byte, most-significant first. -/
def byteBitsMSB (b : Nat) : List Bool := natBitsMSB b 8

theorem natBitsMSB_length (v len : Nat) : (natBitsMSB v len).length = len := by
  simp [natBitsMSB]

theorem natBitsMSB_succ (v len : Nat) :
    natBitsMSB v (len + 1) = v.testBit len :: natBitsMSB v len := by
  simp only [natBitsMSB, List.range_succ_eq_map, List.map_cons, List.map_map]
  congr 1
  apply List.map_congr_left
  intro i _
  simp only [Function.comp_apply]
  congr 1
  omega

theorem bitsToNatMSB_lt (l : List Bool) : bitsToNatMSB l < 2 ^ l.length := by
  induction l with
  | nil => simp [bitsToNatMSB]
  | cons b rest ih =>
    simp only [bitsToNatMSB, List.length_cons, pow_succ]
    cases b <;> simp <;> omega

theorem bitsToNatMSB_natBitsMSB_mod (v len : Nat) :
    bitsToNatMSB (natBitsMSB v len) = v % 2 ^ len := by
  induction len with
  | zero => simp [natBitsMSB, bitsToNatMSB, Nat.mod_one]
  | succ k ih =>
    rw [natBitsMSB_succ]
    simp only [bitsToNatMSB, natBitsMSB_length, ih]
    rw [Nat.testBit_to_div_mod]
    have h2 : v % 2 ^ (k + 1) = 2 ^ k * (v / 2 ^ k % 2) + v % 2 ^ k := by
      rw [Nat.mod_pow_succ]; ring
    by_cases h : v / 2 ^ k % 2 = 1
    · rw [h] at h2; simp [h]; omega
    · have h0 : v / 2 ^ k % 2 = 0 := by omega
      rw [h0] at h2; simp [h]; omega

theorem bitsToNatMSB_natBitsMSB (v len : Nat) (h : v < 2 ^ len) :
    bitsToNatMSB (natBitsMSB v len) = v := by
  rw [bitsToNatMSB_natBitsMSB_mod, Nat.mod_eq_of_lt h]

theorem natBitsMSB_mod_two_pow (v len : Nat) :
    natBitsMSB (v % 2 ^ len) len = natBitsMSB v len := by
  simp only [natBitsMSB]
  apply List.map_congr_left
  intro i hi
  rw [List.mem_range] at hi
  rw [Nat.testBit_mod_two_pow]
  have : len - 1 - i < len := by omega
  simp [this]

theorem natBitsMSB_bitsToNatMSB (l : List Bool) :
    natBitsMSB (bitsToNatMSB l) l.length = l := by
  induction l with
  | nil => simp [natBitsMSB]
  | cons b rest ih =>
    rw [List.length_cons, natBitsMSB_succ]
    have hlt := bitsToNatMSB_lt rest
    have hhead : (bitsToNatMSB (b :: rest)).testBit rest.length = b := by
      rw [Nat.testBit_to_div_mod]
      simp only [bitsToNatMSB]
      have hdiv : ((if b = true then (1 : Nat) else 0) * 2 ^ rest.length +
          bitsToNatMSB rest) / 2 ^ rest.length = if b = true then 1 else 0 := by
        rw [Nat.mul_comm, Nat.mul_add_div (pow_pos (by norm_num) _),
          Nat.div_eq_of_lt hlt]
        simp
      simp only [hdiv]
      cases b <;> simp
    have htail : natBitsMSB (bitsToNatMSB (b :: rest)) rest.length = rest := by
      rw [← natBitsMSB_mod_two_pow]
      have hmod : bitsToNatMSB (b :: rest) % 2 ^ rest.length = bitsToNatMSB rest := by
        simp only [bitsToNatMSB]
        cases b <;> simp [Nat.add_mul_mod_self_left, Nat.mod_eq_of_lt hlt]
      rw [hmod, ← natBitsMSB_mod_two_pow, Nat.mod_eq_of_lt hlt, ih]
    rw [hhead, htail]

/-- Splitting an MSB-first bit pattern: the high n bits then the low m bits. -/
theorem natBitsMSB_add (v n m : Nat) :
    natBitsMSB v (n + m) = natBitsMSB (v >>> m) n ++ natBitsMSB v m := by
  induction n with
  | zero => simp [natBitsMSB]
  | succ k ih =>
    have : k + 1 + m = (k + m) + 1 := by omega
    rw [this, natBitsMSB_succ, ih, natBitsMSB_succ]
    simp only [List.cons_append]
    rw [Nat.testBit_shiftRight]
    congr 2
    omega

/-! ## Word-swapped (MSB16) vacuumer and streamer

The MSB16 sources (bitstreams/BitVacuumerMSB16.h, BitStreamerMSB16.h)
are not part of the sources at hand; only their reference test
(test/librawspeed/bitstreams/BitVacuumerMSB16Test.cpp) is.  The
definitions below are modelled from the specification: the stream is a
sequence of 16-bit units, each unit stored byte-reversed, bits within a
unit being extracted most-significant first; the vacuumer drains in
4-byte units (two 16-bit words), zero-padding the final partial unit.
The model is pinned against the literal expected outputs of the test.
-/

/-- Modelled from the spec: one 4-byte drain unit of the MSB16 vacuumer.
The 32 accumulated bits (MSB-first) form a big-endian value v; the two
16-bit halves of v are emitted in order, each half byte-reversed
(little-endian 16-bit storage). -/
def drainUnitMSB16 (c : List Bool) : List Nat :=
  let v := bitsToNatMSB c
  [v >>> 16 % 256, v >>> 24 % 256, v % 256, v >>> 8 % 256]

/-- Zero-pad a partial drain unit up to 32 bits. -/
def padTo32 (c : List Bool) : List Bool :=
  c ++ List.replicate (32 - c.length) false

/-- Modelled from the spec: drain the accumulated bits in 4-byte units,
zero-padding the final partial unit; an empty bit sequence produces no
output.  The first argument is recursion fuel (any value at least the
number of bits is enough). -/
def drainAllMSB16 : Nat → List Bool → List Nat
  | 0, _ => []
  | fuel + 1, l =>
    if l = [] then []
    else drainUnitMSB16 (padTo32 (l.take 32)) ++ drainAllMSB16 fuel (l.drop 32)

/-- The MSB-first bit sequence described by a recipe of (value, len)
pairs, as accumulated by successive put(value, len) calls. -/
def recipeBits (r : List (Nat × Nat)) : List Bool :=
  (r.map fun e => natBitsMSB e.1 e.2).flatten

/-- Modelled from the spec: the full byte output of a BitVacuumerMSB16
that receives the puts of a recipe and is then finalized (flushed). -/
def vacuumMSB16 (r : List (Nat × Nat)) : List Nat :=
  drainAllMSB16 (recipeBits r).length (recipeBits r)

/-- Modelled from the spec: the bit sequence a BitStreamerMSB16 presents
when reading a byte buffer.  Input is consumed two bytes at a time; each
two-byte unit is byte-reversed on entry (16-bit little-endian load) and
its bits are presented most-significant first.  A trailing lone byte is
completed with a zero byte (reads beyond the buffer yield zero). -/
def msb16DecodeBits : List Nat → List Bool
  | [] => []
  | [x] => byteBitsMSB 0 ++ byteBitsMSB x
  | x :: y :: rest => byteBitsMSB y ++ byteBitsMSB x ++ msb16DecodeBits rest

/-- Modelled from the spec: reading a sequence of bit lengths from a bit
stream, returning the MSB-first value of each chunk in order. -/
def readSeqMSB (bits : List Bool) : List Nat → List Nat
  | [] => []
  | n :: ns => bitsToNatMSB (bits.take n) :: readSeqMSB (bits.drop n) ns

/-- Modelled from the spec: conversion of a logical consumed-bit
position to the external rebase pair (bytePos, subByteBitOffset) with
subByteBitOffset in [0, 8). -/
def toByteStreamPosition (bitPos : Nat) : Nat × Nat :=
  (bitPos / 8, bitPos % 8)

/-! ## MSB16 drain / decode lemmas -/

theorem byteBitsMSB_length (b : Nat) : (byteBitsMSB b).length = 8 := by
  simp [byteBitsMSB, natBitsMSB_length]

theorem msb16DecodeBits_cons_cons (x y : Nat) (rest : List Nat) :
    msb16DecodeBits (x :: y :: rest) =
      byteBitsMSB y ++ byteBitsMSB x ++ msb16DecodeBits rest := rfl

theorem msb16DecodeBits_append4 (a b c d : Nat) (rest : List Nat) :
    msb16DecodeBits (a :: b :: c :: d :: rest) =
      byteBitsMSB b ++ byteBitsMSB a ++ (byteBitsMSB d ++ byteBitsMSB c ++
        msb16DecodeBits rest) := by
  rw [msb16DecodeBits_cons_cons, msb16DecodeBits_cons_cons, List.append_assoc]

theorem byteBitsMSB_mod (x : Nat) : byteBitsMSB (x % 256) = natBitsMSB x 8 := by
  have h : (256 : Nat) = 2 ^ 8 := by norm_num
  rw [byteBitsMSB, h, natBitsMSB_mod_two_pow]

/-- A 32-bit MSB-first pattern split into its four bytes, high byte first. -/
theorem natBitsMSB_32_bytes (v : Nat) :
    natBitsMSB v 32 = natBitsMSB (v >>> 24) 8 ++ natBitsMSB (v >>> 16) 8 ++
      natBitsMSB (v >>> 8) 8 ++ natBitsMSB v 8 := by
  have h1 : natBitsMSB v 32 = natBitsMSB (v >>> 24) 8 ++ natBitsMSB v 24 :=
    natBitsMSB_add v 8 24
  have h2 : natBitsMSB v 24 = natBitsMSB (v >>> 16) 8 ++ natBitsMSB v 16 :=
    natBitsMSB_add v 8 16
  have h3 : natBitsMSB v 16 = natBitsMSB (v >>> 8) 8 ++ natBitsMSB v 8 :=
    natBitsMSB_add v 8 8
  rw [h1, h2, h3]
  simp [List.append_assoc]

/-- Decoding one drain unit recovers exactly its 32 bits. -/
theorem msb16DecodeBits_drainUnit (c : List Bool) (hc : c.length = 32) :
    msb16DecodeBits (drainUnitMSB16 c) = c := by
  simp only [drainUnitMSB16]
  rw [msb16DecodeBits_append4]
  simp only [msb16DecodeBits, List.append_nil, byteBitsMSB_mod]
  have h32 := natBitsMSB_32_bytes (bitsToNatMSB c)
  have hc2 := natBitsMSB_bitsToNatMSB c
  rw [hc] at hc2
  simp only [List.append_assoc] at h32 ⊢
  rw [← h32, hc2]

theorem padTo32_length (c : List Bool) (hc : c.length ≤ 32) :
    (padTo32 c).length = 32 := by
  simp [padTo32]
  omega

theorem padTo32_eq (c : List Bool) :
    padTo32 c = c ++ List.replicate (32 - c.length) false := rfl

theorem drainAllMSB16_nil (fuel : Nat) : drainAllMSB16 fuel [] = [] := by
  cases fuel <;> simp [drainAllMSB16]

/-- Output length of the drain loop: four bytes per (partial) 32-bit unit. -/
theorem drainAllMSB16_length (fuel : Nat) :
    ∀ l : List Bool, l.length ≤ fuel →
      (drainAllMSB16 fuel l).length = 4 * ((l.length + 31) / 32) := by
  induction fuel with
  | zero =>
    intro l hl
    have : l = [] := by
      cases l
      · rfl
      · simp at hl
    subst this
    simp [drainAllMSB16]
  | succ f ih =>
    intro l hl
    by_cases h : l = []
    · subst h
      simp [drainAllMSB16]
    · rw [drainAllMSB16, if_neg h]
      have hlen : 0 < l.length := List.length_pos.mpr h
      rw [List.length_append, ih (l.drop 32) (by simp; omega)]
      have hu : (drainUnitMSB16 (padTo32 (l.take 32))).length = 4 := by
        simp [drainUnitMSB16]
      rw [hu, List.length_drop]
      omega

/-- Decoding the drained output recovers the accumulated bits followed by
the zero padding of the final unit. -/
theorem msb16DecodeBits_drainAllMSB16 (fuel : Nat) :
    ∀ l : List Bool, l.length ≤ fuel →
      msb16DecodeBits (drainAllMSB16 fuel l) =
        l ++ List.replicate (32 * ((l.length + 31) / 32) - l.length) false := by
  induction fuel with
  | zero =>
    intro l hl
    have : l = [] := by
      cases l
      · rfl
      · simp at hl
    subst this
    simp [drainAllMSB16, msb16DecodeBits]
  | succ f ih =>
    intro l hl
    by_cases h : l = []
    · subst h
      simp [drainAllMSB16, msb16DecodeBits]
    · rw [drainAllMSB16, if_neg h]
      have hlen : 0 < l.length := List.length_pos.mpr h
      have htake : (l.take 32).length = min 32 l.length := List.length_take 32 l
      have hu4 : ∃ a b c d, drainUnitMSB16 (padTo32 (l.take 32)) = [a, b, c, d] := by
        refine ⟨_, _, _, _, rfl⟩
      obtain ⟨a, b, c, d, hu⟩ := hu4
      rw [hu]
      have hdec : msb16DecodeBits (a :: b :: c :: d ::
          drainAllMSB16 f (l.drop 32)) = msb16DecodeBits [a, b, c, d] ++
          msb16DecodeBits (drainAllMSB16 f (l.drop 32)) := by
        rw [msb16DecodeBits_append4]
        simp [msb16DecodeBits, List.append_assoc]
      show msb16DecodeBits (a :: b :: c :: d :: drainAllMSB16 f (l.drop 32)) = _
      rw [hdec, ← hu, msb16DecodeBits_drainUnit _ (padTo32_length _ (by omega)),
        ih (l.drop 32) (by simp; omega)]
      rw [padTo32_eq]
      by_cases h32 : l.length ≤ 32
      · have hdrop : l.drop 32 = [] := List.drop_eq_nil_of_le h32
        rw [hdrop, List.take_of_length_le h32]
        simp only [List.nil_append, List.length_nil]
        have : (l.length + 31) / 32 = 1 := by omega
        rw [this]
        simp
      · have htk : (l.take 32).length = 32 := by omega
        rw [htk]
        simp only [Nat.sub_self, List.replicate_zero, List.append_nil]
        rw [← List.append_assoc, List.take_append_drop, List.length_drop]
        congr 2
        omega

theorem recipeBits_length (r : List (Nat × Nat)) :
    (recipeBits r).length = ((r.map Prod.snd).sum) := by
  induction r with
  | nil => simp [recipeBits]
  | cons e rest ih =>
    simp only [recipeBits, List.map_cons, List.flatten_cons, List.length_append,
      natBitsMSB_length, List.map_cons, List.sum_cons]
    rw [← ih]
    rfl

/-- Reading the recorded lengths from the recorded bits (followed by any
tail) yields the recorded values. -/
theorem readSeqMSB_recipeBits (r : List (Nat × Nat))
    (h : ∀ e ∈ r, e.1 < 2 ^ e.2) (tail : List Bool) :
    readSeqMSB (recipeBits r ++ tail) (r.map Prod.snd) = r.map Prod.fst := by
  induction r generalizing tail with
  | nil => simp [readSeqMSB]
  | cons e rest ih =>
    obtain ⟨v, n⟩ := e
    have hbits : recipeBits ((v, n) :: rest) = natBitsMSB v n ++ recipeBits rest := by
      simp [recipeBits]
    rw [hbits, List.append_assoc]
    simp only [List.map_cons, readSeqMSB]
    have hlen : (natBitsMSB v n).length = n := natBitsMSB_length v n
    rw [List.take_left' hlen, List.drop_left' hlen]
    rw [bitsToNatMSB_natBitsMSB v n (h (v, n) (List.mem_cons_self _ _))]
    rw [ih (fun e he => h e (List.mem_cons_of_mem _ he)) tail]

/-- Dropping one 16-bit unit of input drops exactly 16 decoded bits. -/
theorem msb16DecodeBits_drop2 (data : List Nat) :
    msb16DecodeBits (data.drop 2) = (msb16DecodeBits data).drop 16 := by
  match data with
  | [] => simp [msb16DecodeBits]
  | [x] =>
    simp only [msb16DecodeBits, List.drop_nil]
    have : (byteBitsMSB 0 ++ byteBitsMSB x).length = 16 := by
      simp [byteBitsMSB_length]
    rw [show (16 : Nat) = (byteBitsMSB 0 ++ byteBitsMSB x).length from this.symm]
    rw [List.drop_length]
  | x :: y :: rest =>
    rw [msb16DecodeBits_cons_cons]
    have h16 : (16 : Nat) = (byteBitsMSB y ++ byteBitsMSB x).length := by
      simp [byteBitsMSB_length]
    rw [h16, List.drop_left]
    rfl

/-- Dropping any even number of input bytes drops exactly eight decoded
bits per byte. -/
theorem msb16DecodeBits_drop_even (k : Nat) :
    ∀ data : List Nat,
      msb16DecodeBits (data.drop (2 * k)) = (msb16DecodeBits data).drop (16 * k) := by
  induction k with
  | zero => simp
  | succ m ih =>
    intro data
    have h1 : data.drop (2 * (m + 1)) = (data.drop 2).drop (2 * m) := by
      rw [List.drop_drop]
      congr 1
      omega
    rw [h1, ih (data.drop 2), msb16DecodeBits_drop2, List.drop_drop]
    congr 1
    omega

/-! ## Claims about the MSB16 vacuumer and streamer -/

/-- C1: for every sequence of (value, len) pairs with 0 ≤ len ≤ 32 and
value < 2^len, writing the sequence with the word-swapped (MSB16)
vacuumer and then reading the same sequence of lens with the
word-swapped (MSB16) reader over the produced byte output yields exactly
the original values, in order. -/
theorem msb16_roundtrip (r : List (Nat × Nat))
    (h : ∀ e ∈ r, e.2 ≤ 32 ∧ e.1 < 2 ^ e.2) :
    readSeqMSB (msb16DecodeBits (vacuumMSB16 r)) (r.map Prod.snd) =
      r.map Prod.fst := by
  rw [vacuumMSB16, msb16DecodeBits_drainAllMSB16 _ _ le_rfl]
  exact readSeqMSB_recipeBits r (fun e he => (h e he).2) _

/-- Witness for C1: a concrete recipe round-trips. -/
theorem msb16_roundtrip_witness :
    (∀ e ∈ [((5 : Nat), (3 : Nat)), (1000, 12), (0, 0), (3, 2)],
      e.2 ≤ 32 ∧ e.1 < 2 ^ e.2) ∧
    readSeqMSB (msb16DecodeBits (vacuumMSB16 [(5, 3), (1000, 12), (0, 0), (3, 2)]))
        ([((5 : Nat), (3 : Nat)), (1000, 12), (0, 0), (3, 2)].map Prod.snd) =
      [((5 : Nat), (3 : Nat)), (1000, 12), (0, 0), (3, 2)].map Prod.fst :=
  ⟨by decide, msb16_roundtrip _ (by decide)⟩

/-- C7: the word-swapped (MSB16) vacuumer produces the literal reference
outputs: (0xFF, 8) gives bytes 00 FF 00 00; (0x00, 8) then (0xFF, 8)
gives FF 00 00 00; (0x00, 25) then (0xFF, 8) gives
00 00 7F 00 00 80 00 00, spanning two drain units. -/
theorem vacuumMSB16_test_vectors :
    vacuumMSB16 [(0xFF, 8)] = [0x00, 0xFF, 0x00, 0x00] ∧
    vacuumMSB16 [(0x00, 8), (0xFF, 8)] = [0xFF, 0x00, 0x00, 0x00] ∧
    vacuumMSB16 [(0x00, 25), (0xFF, 8)] =
      [0x00, 0x00, 0x7F, 0x00, 0x00, 0x80, 0x00, 0x00] :=
  ⟨by decide, by decide, by decide⟩

/-- C8: finalizing the word-swapped (MSB16) vacuumer after puts whose
total bit length is non-zero and not a multiple of the 32-bit drain unit
pads the final unit with zero bits, so the output length is a whole
multiple of the 4-byte drain unit and all trailing bits are zero. -/
theorem vacuumMSB16_granularity_padding (r : List (Nat × Nat))
    (hnz : (r.map Prod.snd).sum ≠ 0)
    (hpart : (r.map Prod.snd).sum % 32 ≠ 0) :
    (vacuumMSB16 r).length % 4 = 0 ∧
    (vacuumMSB16 r).length = 4 * (((r.map Prod.snd).sum + 31) / 32) ∧
    msb16DecodeBits (vacuumMSB16 r) =
      recipeBits r ++
        List.replicate (8 * (vacuumMSB16 r).length - (r.map Prod.snd).sum)
          false := by
  have hL := recipeBits_length r
  have hlen := drainAllMSB16_length (recipeBits r).length (recipeBits r) le_rfl
  have hdec := msb16DecodeBits_drainAllMSB16 (recipeBits r).length
    (recipeBits r) le_rfl
  refine ⟨?_, ?_, ?_⟩
  · simp only [vacuumMSB16]
    rw [hlen]
    omega
  · simp only [vacuumMSB16]
    rw [hlen, hL]
  · simp only [vacuumMSB16]
    rw [hdec, hlen, hL]
    congr 2
    omega

/-- Witness for C8: a single one-bit put pads up to one full unit. -/
theorem vacuumMSB16_granularity_padding_witness :
    ([((1 : Nat), (1 : Nat))].map Prod.snd).sum ≠ 0 ∧
    ([((1 : Nat), (1 : Nat))].map Prod.snd).sum % 32 ≠ 0 ∧
    ((vacuumMSB16 [(1, 1)]).length % 4 = 0 ∧
      (vacuumMSB16 [(1, 1)]).length =
        4 * ((([((1 : Nat), (1 : Nat))].map Prod.snd).sum + 31) / 32) ∧
      msb16DecodeBits (vacuumMSB16 [(1, 1)]) =
        recipeBits [(1, 1)] ++
          List.replicate
            (8 * (vacuumMSB16 [(1, 1)]).length -
              ([((1 : Nat), (1 : Nat))].map Prod.snd).sum) false) :=
  ⟨by decide, by decide,
    vacuumMSB16_granularity_padding [(1, 1)] (by decide) (by decide)⟩

/-- C4: for the word-swapped (MSB16) tag and a consumed-bit position
whose external bytePos is a multiple of MinLoadStepByteMultiple = 2, a
fresh reader over the buffer cropped at bytePos, after skipping
subByteBitOffset bits, presents exactly the bit stream the uninterrupted
reader presents from that point onward. -/
theorem msb16_rebase_fidelity (data : List Nat) (bitPos : Nat)
    (halign : (toByteStreamPosition bitPos).1 % 2 = 0) :
    List.drop (toByteStreamPosition bitPos).2
      (msb16DecodeBits (List.drop (toByteStreamPosition bitPos).1 data)) =
      List.drop bitPos (msb16DecodeBits data) := by
  simp only [toByteStreamPosition] at halign ⊢
  have hk : bitPos / 8 = 2 * (bitPos / 16) := by omega
  rw [hk, msb16DecodeBits_drop_even, List.drop_drop]
  congr 1
  omega

/-- Witness for C4: rebasing at bit position 19 (bytePos 2, bit offset 3)
over a concrete buffer. -/
theorem msb16_rebase_fidelity_witness :
    (toByteStreamPosition 19).1 % 2 = 0 ∧
    List.drop (toByteStreamPosition 19).2
      (msb16DecodeBits (List.drop (toByteStreamPosition 19).1
        [1, 2, 3, 4, 5, 6, 7, 8])) =
      List.drop 19 (msb16DecodeBits [1, 2, 3, 4, 5, 6, 7, 8]) :=
  ⟨by decide, msb16_rebase_fidelity [1, 2, 3, 4, 5, 6, 7, 8] 19 (by decide)⟩

/-! ## JPEG byte-stuffed bit streamer

Translated from src/librawspeed/io/BitStreamerJPEG.h, the template
specialization BitStreamerJPEG::fillCache.  The cache type itself
(BitStreamerCacheRightInLeftOut) is not among the sources at hand; it is
modelled from the spec, with its layout pinned by the in-source comments
of BitStreamerJPEG.h: bits are pushed in from the right and read from
the left, and all fillLevel valid bits are the high bits of the 64-bit
register.
-/

/-- Modelled from the spec: the 64-bit right-in/left-out bit cache.  The
valid bits are the high fillLevel bits of the register; push places the
count low bits of value immediately below the valid region. -/
structure BitStreamerCache where
  cache : Nat
  fillLevel : Nat
deriving DecidableEq

/-- Push count bits of value into the cache from the right. -/
def BitStreamerCache.push (c : BitStreamerCache) (value count : Nat) :
    BitStreamerCache :=
  { cache := c.cache ||| value <<< (64 - c.fillLevel - count),
    fillLevel := c.fillLevel + count }

/-- Push a list of whole bytes, first byte first. -/
def BitStreamerCache.pushBytes (c : BitStreamerCache) (bs : List Nat) :
    BitStreamerCache :=
  bs.foldl (fun a b => a.push b 8) c

/-- The cache class invariant: at most 64 valid bits, the register value
fits in 64 bits, and every register bit beyond fillLevel (below position
64 - fillLevel) is zero. -/
def cacheInv (c : BitStreamerCache) : Prop :=
  c.fillLevel ≤ 64 ∧ c.cache < 2 ^ 64 ∧
    ∀ i, i < 64 - c.fillLevel → c.cache.testBit i = false

instance (c : BitStreamerCache) : Decidable (cacheInv c) := by
  unfold cacheInv
  infer_instance

/-- The 64-bit mask with only the high fl bits set: the source idiom is
the complement of (the all-ones word shifted right by fl). -/
def mask64 (fl : Nat) : Nat := 2 ^ 64 - 2 ^ (64 - fl)

/-- The marker-rewind path of fillCache: rewind fillLevel by 8, keep
only the high fillLevel register bits, then claim a full cache. -/
def jpegMarkerCache (c : BitStreamerCache) : BitStreamerCache :=
  { cache := c.cache &&& mask64 (c.fillLevel - 8), fillLevel := 64 }

/-- Big-endian 32-bit load of the first four window bytes. -/
def getBE32 (w : List Nat) : Nat :=
  w.getD 0 0 <<< 24 ||| w.getD 1 0 <<< 16 ||| w.getD 2 0 <<< 8 ||| w.getD 3 0

/-- The byte-by-byte loop of BitStreamerJPEG::fillCache: up to four
logical steps; a normal byte is pushed and consumes one byte; 0xFF
followed by 0x00 pushes 0xFF and consumes two bytes; 0xFF followed by a
non-zero byte rewinds the pushed 0xFF, zero-fills the cache and stops at
the 0xFF.  Returns the cache and the number of consumed bytes. -/
def jpegSlowLoop (w : List Nat) :
    Nat → BitStreamerCache → Nat → BitStreamerCache × Nat
  | 0, c, p => (c, p)
  | i + 1, c, p =>
    let c0 := w.getD p 0
    let pushed := c.push c0 8
    if c0 = 0xFF then
      if w.getD (p + 1) 0 = 0x00 then jpegSlowLoop w i pushed (p + 2)
      else (jpegMarkerCache pushed, p)
    else jpegSlowLoop w i pushed (p + 1)

/-- BitStreamerJPEG::fillCache over an 8-byte window: fast path when
none of the first four bytes is 0xFF (single 32-bit big-endian push,
four bytes consumed), otherwise the byte-by-byte loop. -/
def fillCacheJPEG (c : BitStreamerCache) (w : List Nat) :
    BitStreamerCache × Nat :=
  if w.getD 0 0 ≠ 0xFF ∧ w.getD 1 0 ≠ 0xFF ∧ w.getD 2 0 ≠ 0xFF ∧
      w.getD 3 0 ≠ 0xFF then
    (c.push (getBE32 w) 32, 4)
  else jpegSlowLoop w 4 c 0

/-- The reader state: consumed-byte input position and the bit cache. -/
structure BitStreamerJPEGState where
  pos : Nat
  cache : BitStreamerCache
deriving DecidableEq

/-- The 8-byte prefetch window at the current input position. -/
def jpegWindow (data : List Nat) (pos : Nat) : List Nat :=
  (data.drop pos).take 8

/-- One fillCache invocation of the reader over its input. -/
def fillJPEG (data : List Nat) (s : BitStreamerJPEGState) :
    BitStreamerJPEGState :=
  let r := fillCacheJPEG s.cache (jpegWindow data s.pos)
  { pos := s.pos + r.2, cache := r.1 }

/-- Raw consumed-byte count. -/
def BitStreamerJPEGState.getInputPosition (s : BitStreamerJPEGState) : Nat :=
  s.pos

/-- BitStreamerJPEG::getStreamPosition returns getInputPosition; at end
of stream it points at the JPEG marker 0xFF. -/
def BitStreamerJPEGState.getStreamPosition (s : BitStreamerJPEGState) : Nat :=
  s.getInputPosition

/-- The byte offset at which the fillCache loop stops at a marker (0xFF
followed by non-zero), if it does so within the given number of logical
steps; mirrors the control flow of jpegSlowLoop. -/
def jpegMarkerOffset (w : List Nat) : Nat → Nat → Option Nat
  | 0, _ => none
  | i + 1, p =>
    if w.getD p 0 = 0xFF then
      if w.getD (p + 1) 0 = 0x00 then jpegMarkerOffset w i (p + 2)
      else some p
    else jpegMarkerOffset w i (p + 1)

/-- The data bytes the fillCache loop pushes before stopping (at a
marker or after its logical steps); mirrors jpegSlowLoop. -/
def jpegDataBytes (w : List Nat) : Nat → Nat → List Nat
  | 0, _ => []
  | i + 1, p =>
    if w.getD p 0 = 0xFF then
      if w.getD (p + 1) 0 = 0x00 then 0xFF :: jpegDataBytes w i (p + 2)
      else []
    else w.getD p 0 :: jpegDataBytes w i (p + 1)

/-! ## Cache arithmetic lemmas -/

theorem shiftLeft_lor_distrib (x y s : Nat) :
    (x ||| y) <<< s = x <<< s ||| y <<< s := by
  apply Nat.eq_of_testBit_eq
  intro i
  simp [Nat.testBit_shiftLeft, Nat.testBit_or, Bool.and_or_distrib_left]

/-- Two consecutive pushes equal one combined push of the concatenated
bit patterns. -/
theorem BitStreamerCache.push_push (c : BitStreamerCache) (a n b m : Nat)
    (h : c.fillLevel + n + m ≤ 64) :
    (c.push a n).push b m = c.push (a <<< m ||| b) (n + m) := by
  have hs : m + (64 - c.fillLevel - (n + m)) = 64 - c.fillLevel - n := by omega
  have hs2 : 64 - (c.fillLevel + n) - m = 64 - c.fillLevel - (n + m) := by omega
  simp only [BitStreamerCache.push, shiftLeft_lor_distrib,
    ← Nat.shiftLeft_add, hs, BitStreamerCache.mk.injEq]
  constructor
  · rw [Nat.or_assoc, hs2]
  · omega

theorem BitStreamerCache.pushBytes_nil (c : BitStreamerCache) :
    c.pushBytes [] = c := rfl

theorem BitStreamerCache.pushBytes_cons (c : BitStreamerCache) (b : Nat)
    (bs : List Nat) : c.pushBytes (b :: bs) = (c.push b 8).pushBytes bs := rfl

theorem BitStreamerCache.pushBytes_fillLevel (bs : List Nat) :
    ∀ c : BitStreamerCache,
      (c.pushBytes bs).fillLevel = c.fillLevel + 8 * bs.length := by
  induction bs with
  | nil => intro c; simp [BitStreamerCache.pushBytes]
  | cons b rest ih =>
    intro c
    rw [BitStreamerCache.pushBytes_cons, ih]
    simp only [BitStreamerCache.push, List.length_cons]
    omega

/-- Pushing preserves the cache invariant. -/
theorem cacheInv_push (c : BitStreamerCache) (b n : Nat) (hinv : cacheInv c)
    (hb : b < 2 ^ n) (h : c.fillLevel + n ≤ 64) : cacheInv (c.push b n) := by
  obtain ⟨h1, h2, h3⟩ := hinv
  refine ⟨h, ?_, ?_⟩
  · show c.cache ||| b <<< (64 - c.fillLevel - n) < 2 ^ 64
    apply Nat.or_lt_two_pow h2
    rw [Nat.shiftLeft_eq]
    calc b * 2 ^ (64 - c.fillLevel - n)
        < 2 ^ n * 2 ^ (64 - c.fillLevel - n) :=
          mul_lt_mul_of_pos_right hb (pow_pos (by norm_num) _)
      _ = 2 ^ (n + (64 - c.fillLevel - n)) := by rw [pow_add]
      _ ≤ 2 ^ 64 := Nat.pow_le_pow_right (by norm_num) (by omega)
  · intro i hi
    have hi2 : i < 64 - (c.fillLevel + n) := hi
    show (c.cache ||| b <<< (64 - c.fillLevel - n)).testBit i = false
    rw [Nat.testBit_or]
    have hc : c.cache.testBit i = false := h3 i (by omega)
    have hs : (b <<< (64 - c.fillLevel - n)).testBit i = false := by
      rw [Nat.testBit_shiftLeft]
      have : ¬ (i ≥ 64 - c.fillLevel - n) := by omega
      simp [this]
    rw [hc, hs]
    rfl

theorem cacheInv_pushBytes (bs : List Nat) :
    ∀ c : BitStreamerCache, cacheInv c → (∀ b ∈ bs, b < 256) →
      c.fillLevel + 8 * bs.length ≤ 64 → cacheInv (c.pushBytes bs) := by
  induction bs with
  | nil => intro c hinv _ _; exact hinv
  | cons b rest ih =>
    intro c hinv hb hfl
    rw [BitStreamerCache.pushBytes_cons]
    refine ih _ ?_ (fun x hx => hb x (List.mem_cons_of_mem _ hx)) ?_
    · exact cacheInv_push c b 8 hinv (hb b (List.mem_cons_self _ _))
        (by simp at hfl; omega)
    · simp only [BitStreamerCache.push, List.length_cons] at hfl ⊢
      omega

theorem mask64_testBit (fl : Nat) (hfl : fl ≤ 64) (i : Nat) :
    (mask64 fl).testBit i = (decide (64 - fl ≤ i) && decide (i < 64)) := by
  have heq : mask64 fl = (2 ^ fl - 1) <<< (64 - fl) := by
    rw [mask64, Nat.shiftLeft_eq, Nat.sub_mul, one_mul, ← pow_add]
    congr 2
    omega
  rw [heq, Nat.testBit_shiftLeft, Nat.testBit_two_pow_sub_one]
  by_cases h1 : 64 - fl ≤ i
  · by_cases h2 : i < 64
    · have h3 : i - (64 - fl) < fl := by omega
      simp [h1, h2, h3, ge_iff_le]
    · have h3 : ¬ (i - (64 - fl) < fl) := by omega
      simp [h1, h2, h3, ge_iff_le]
  · simp [h1, ge_iff_le]

/-- The marker-rewind path undoes the pushed byte exactly: applied right
after a push of one byte, it restores the register and fills the level.
This is the key unencapsulated step of BitStreamerJPEG::fillCache. -/
theorem jpegMarkerCache_push (c : BitStreamerCache) (b : Nat) (hb : b < 256)
    (hinv : cacheInv c) (hfl : c.fillLevel + 8 ≤ 64) :
    jpegMarkerCache (c.push b 8) = ⟨c.cache, 64⟩ := by
  obtain ⟨h1, h2, h3⟩ := hinv
  simp only [jpegMarkerCache, BitStreamerCache.push, Nat.add_sub_cancel,
    BitStreamerCache.mk.injEq, and_true]
  apply Nat.eq_of_testBit_eq
  intro i
  rw [Nat.testBit_and, Nat.testBit_or, mask64_testBit c.fillLevel (by omega) i,
    Nat.testBit_shiftLeft]
  by_cases hi64 : i < 64
  · by_cases hifl : 64 - c.fillLevel ≤ i
    · have hbbit : b.testBit (i - (64 - c.fillLevel - 8)) = false := by
        apply Nat.testBit_lt_two_pow
        calc b < 256 := hb
          _ = 2 ^ 8 := by norm_num
          _ ≤ 2 ^ (i - (64 - c.fillLevel - 8)) :=
            Nat.pow_le_pow_right (by norm_num) (by omega)
      simp [hifl, hi64, hbbit]
    · have hc := h3 i (by omega)
      simp [hifl, hc]
  · have hc : c.cache.testBit i = false := by
      apply Nat.testBit_lt_two_pow
      exact lt_of_lt_of_le h2 (Nat.pow_le_pow_right (by norm_num) (by omega))
    simp [hi64, hc]

/-- The marker-rewind result always satisfies the cache invariant: the
cache is full and the register stays below 2^64. -/
theorem cacheInv_jpegMarkerCache (c : BitStreamerCache) :
    cacheInv (jpegMarkerCache c) := by
  refine ⟨le_rfl, ?_, ?_⟩
  · apply Nat.and_lt_two_pow
    have h1 : 0 < 2 ^ (64 - (c.fillLevel - 8)) := pow_pos (by norm_num) _
    unfold mask64
    omega
  · intro i hi
    simp [jpegMarkerCache] at hi

/-! ## Step equations for the fillCache loop and its mirrors -/

theorem jpegSlowLoop_zero (w : List Nat) (c : BitStreamerCache) (p : Nat) :
    jpegSlowLoop w 0 c p = (c, p) := rfl

theorem jpegSlowLoop_succ_normal (w : List Nat) (i p : Nat)
    (c : BitStreamerCache) (h : w.getD p 0 ≠ 0xFF) :
    jpegSlowLoop w (i + 1) c p =
      jpegSlowLoop w i (c.push (w.getD p 0) 8) (p + 1) := by
  simp only [jpegSlowLoop]
  rw [if_neg h]

theorem jpegSlowLoop_succ_stuffed (w : List Nat) (i p : Nat)
    (c : BitStreamerCache) (h : w.getD p 0 = 0xFF)
    (hz : w.getD (p + 1) 0 = 0x00) :
    jpegSlowLoop w (i + 1) c p =
      jpegSlowLoop w i (c.push 0xFF 8) (p + 2) := by
  simp only [jpegSlowLoop]
  rw [h, hz, if_pos rfl, if_pos rfl]

theorem jpegSlowLoop_succ_marker (w : List Nat) (i p : Nat)
    (c : BitStreamerCache) (h : w.getD p 0 = 0xFF)
    (hnz : w.getD (p + 1) 0 ≠ 0x00) :
    jpegSlowLoop w (i + 1) c p = (jpegMarkerCache (c.push 0xFF 8), p) := by
  simp only [jpegSlowLoop]
  rw [h, if_pos rfl, if_neg hnz]

theorem jpegMarkerOffset_zero (w : List Nat) (p : Nat) :
    jpegMarkerOffset w 0 p = none := rfl

theorem jpegMarkerOffset_succ_normal (w : List Nat) (i p : Nat)
    (h : w.getD p 0 ≠ 0xFF) :
    jpegMarkerOffset w (i + 1) p = jpegMarkerOffset w i (p + 1) := by
  simp only [jpegMarkerOffset]
  rw [if_neg h]

theorem jpegMarkerOffset_succ_stuffed (w : List Nat) (i p : Nat)
    (h : w.getD p 0 = 0xFF) (hz : w.getD (p + 1) 0 = 0x00) :
    jpegMarkerOffset w (i + 1) p = jpegMarkerOffset w i (p + 2) := by
  simp only [jpegMarkerOffset]
  rw [h, hz, if_pos rfl, if_pos rfl]

theorem jpegMarkerOffset_succ_marker (w : List Nat) (i p : Nat)
    (h : w.getD p 0 = 0xFF) (hnz : w.getD (p + 1) 0 ≠ 0x00) :
    jpegMarkerOffset w (i + 1) p = some p := by
  simp only [jpegMarkerOffset]
  rw [h, if_pos rfl, if_neg hnz]

theorem jpegDataBytes_zero (w : List Nat) (p : Nat) :
    jpegDataBytes w 0 p = [] := rfl

theorem jpegDataBytes_succ_normal (w : List Nat) (i p : Nat)
    (h : w.getD p 0 ≠ 0xFF) :
    jpegDataBytes w (i + 1) p = w.getD p 0 :: jpegDataBytes w i (p + 1) := by
  simp only [jpegDataBytes]
  rw [if_neg h]

theorem jpegDataBytes_succ_stuffed (w : List Nat) (i p : Nat)
    (h : w.getD p 0 = 0xFF) (hz : w.getD (p + 1) 0 = 0x00) :
    jpegDataBytes w (i + 1) p = 0xFF :: jpegDataBytes w i (p + 2) := by
  simp only [jpegDataBytes]
  rw [h, hz, if_pos rfl, if_pos rfl]

theorem jpegDataBytes_succ_marker (w : List Nat) (i p : Nat)
    (h : w.getD p 0 = 0xFF) (hnz : w.getD (p + 1) 0 ≠ 0x00) :
    jpegDataBytes w (i + 1) p = [] := by
  simp only [jpegDataBytes]
  rw [h, if_pos rfl, if_neg hnz]

/-! ## Properties of the fillCache loop -/

/-- If the loop stops at a marker, the returned offset points at the
0xFF marker introducer, is at least the starting offset, and lies within
the bytes the logical steps can inspect. -/
theorem jpegMarkerOffset_spec (w : List Nat) :
    ∀ (i p m : Nat), jpegMarkerOffset w i p = some m →
      p ≤ m ∧ m + 2 ≤ p + 2 * i ∧ w.getD m 0 = 0xFF ∧ w.getD (m + 1) 0 ≠ 0 := by
  intro i
  induction i with
  | zero =>
    intro p m hm
    rw [jpegMarkerOffset_zero] at hm
    exact absurd hm (by simp)
  | succ k ih =>
    intro p m hm
    by_cases hff : w.getD p 0 = 0xFF
    · by_cases hz : w.getD (p + 1) 0 = 0x00
      · rw [jpegMarkerOffset_succ_stuffed w k p hff hz] at hm
        obtain ⟨a, b, cc, d⟩ := ih (p + 2) m hm
        exact ⟨by omega, by omega, cc, d⟩
      · rw [jpegMarkerOffset_succ_marker w k p hff hz] at hm
        have hpm := Option.some.inj hm
        subst hpm
        exact ⟨le_rfl, by omega, hff, hz⟩
    · rw [jpegMarkerOffset_succ_normal w k p hff] at hm
      obtain ⟨a, b, cc, d⟩ := ih (p + 1) m hm
      exact ⟨by omega, by omega, cc, d⟩

theorem jpegDataBytes_length_le (w : List Nat) :
    ∀ i p : Nat, (jpegDataBytes w i p).length ≤ i := by
  intro i
  induction i with
  | zero => intro p; rw [jpegDataBytes_zero]; simp
  | succ k ih =>
    intro p
    by_cases hff : w.getD p 0 = 0xFF
    · by_cases hz : w.getD (p + 1) 0 = 0x00
      · rw [jpegDataBytes_succ_stuffed w k p hff hz]
        have := ih (p + 2)
        simp only [List.length_cons]
        omega
      · rw [jpegDataBytes_succ_marker w k p hff hz]
        simp
    · rw [jpegDataBytes_succ_normal w k p hff]
      have := ih (p + 1)
      simp only [List.length_cons]
      omega

theorem jpegDataBytes_lt_256 (w : List Nat) (hw : ∀ j, w.getD j 0 < 256) :
    ∀ i p : Nat, ∀ b ∈ jpegDataBytes w i p, b < 256 := by
  intro i
  induction i with
  | zero => intro p b hb; rw [jpegDataBytes_zero] at hb; simp at hb
  | succ k ih =>
    intro p b hb
    by_cases hff : w.getD p 0 = 0xFF
    · by_cases hz : w.getD (p + 1) 0 = 0x00
      · rw [jpegDataBytes_succ_stuffed w k p hff hz] at hb
        rcases List.mem_cons.mp hb with h | h
        · omega
        · exact ih (p + 2) b h
      · rw [jpegDataBytes_succ_marker w k p hff hz] at hb
        simp at hb
    · rw [jpegDataBytes_succ_normal w k p hff] at hb
      rcases List.mem_cons.mp hb with h | h
      · subst h; exact hw p
      · exact ih (p + 1) b h

/-- Loop characterization on marker inputs: the loop pushes exactly the
decoded data bytes, rewinds the pushed 0xFF, zero-fills the cache to a
full 64 bits, and returns the marker offset as the consumed count. -/
theorem jpegSlowLoop_marker_eq (w : List Nat) (hw : ∀ j, w.getD j 0 < 256) :
    ∀ (i p : Nat) (c : BitStreamerCache) (m : Nat),
      cacheInv c → c.fillLevel + 8 * i ≤ 64 →
      jpegMarkerOffset w i p = some m →
      jpegSlowLoop w i c p =
        (⟨(c.pushBytes (jpegDataBytes w i p)).cache, 64⟩, m) := by
  intro i
  induction i with
  | zero =>
    intro p c m _ _ hm
    rw [jpegMarkerOffset_zero] at hm
    exact absurd hm (by simp)
  | succ k ih =>
    intro p c m hinv hfl hm
    by_cases hff : w.getD p 0 = 0xFF
    · by_cases hz : w.getD (p + 1) 0 = 0x00
      · rw [jpegMarkerOffset_succ_stuffed w k p hff hz] at hm
        rw [jpegSlowLoop_succ_stuffed w k p c hff hz,
          jpegDataBytes_succ_stuffed w k p hff hz,
          BitStreamerCache.pushBytes_cons]
        exact ih (p + 2) _ m
          (cacheInv_push c 0xFF 8 hinv (by norm_num) (by omega))
          (by simp only [BitStreamerCache.push]; omega) hm
      · rw [jpegMarkerOffset_succ_marker w k p hff hz] at hm
        have hpm := Option.some.inj hm
        subst hpm
        rw [jpegSlowLoop_succ_marker w k p c hff hz,
          jpegDataBytes_succ_marker w k p hff hz,
          BitStreamerCache.pushBytes_nil,
          jpegMarkerCache_push c 0xFF (by norm_num) hinv (by omega)]
    · rw [jpegMarkerOffset_succ_normal w k p hff] at hm
      rw [jpegSlowLoop_succ_normal w k p c hff,
        jpegDataBytes_succ_normal w k p hff,
        BitStreamerCache.pushBytes_cons]
      exact ih (p + 1) _ m
        (cacheInv_push c _ 8 hinv (lt_of_lt_of_le (hw p) (by norm_num))
          (by omega))
        (by simp only [BitStreamerCache.push]; omega) hm

theorem jpegSlowLoop_pos_ge (w : List Nat) :
    ∀ (i p : Nat) (c : BitStreamerCache), p ≤ (jpegSlowLoop w i c p).2 := by
  intro i
  induction i with
  | zero => intro p c; rw [jpegSlowLoop_zero]
  | succ k ih =>
    intro p c
    by_cases hff : w.getD p 0 = 0xFF
    · by_cases hz : w.getD (p + 1) 0 = 0x00
      · rw [jpegSlowLoop_succ_stuffed w k p c hff hz]
        have := ih (p + 2) (c.push 0xFF 8)
        omega
      · rw [jpegSlowLoop_succ_marker w k p c hff hz]
    · rw [jpegSlowLoop_succ_normal w k p c hff]
      have := ih (p + 1) (c.push (w.getD p 0) 8)
      omega

theorem jpegSlowLoop_pos_le (w : List Nat) :
    ∀ (i p : Nat) (c : BitStreamerCache),
      (jpegSlowLoop w i c p).2 ≤ p + 2 * i := by
  intro i
  induction i with
  | zero => intro p c; rw [jpegSlowLoop_zero]; omega
  | succ k ih =>
    intro p c
    by_cases hff : w.getD p 0 = 0xFF
    · by_cases hz : w.getD (p + 1) 0 = 0x00
      · rw [jpegSlowLoop_succ_stuffed w k p c hff hz]
        have := ih (p + 2) (c.push 0xFF 8)
        omega
      · rw [jpegSlowLoop_succ_marker w k p c hff hz]
        omega
    · rw [jpegSlowLoop_succ_normal w k p c hff]
      have := ih (p + 1) (c.push (w.getD p 0) 8)
      omega

/-- The loop either performs all its logical steps, adding exactly 8
bits per step, or stops at a marker with a completely full cache. -/
theorem jpegSlowLoop_fillLevel_or (w : List Nat) :
    ∀ (i p : Nat) (c : BitStreamerCache),
      (jpegSlowLoop w i c p).1.fillLevel = c.fillLevel + 8 * i ∨
        (jpegSlowLoop w i c p).1.fillLevel = 64 := by
  intro i
  induction i with
  | zero => intro p c; rw [jpegSlowLoop_zero]; left; simp
  | succ k ih =>
    intro p c
    by_cases hff : w.getD p 0 = 0xFF
    · by_cases hz : w.getD (p + 1) 0 = 0x00
      · rw [jpegSlowLoop_succ_stuffed w k p c hff hz]
        rcases ih (p + 2) (c.push 0xFF 8) with h | h
        · left
          rw [h]
          simp only [BitStreamerCache.push]
          omega
        · right
          exact h
      · rw [jpegSlowLoop_succ_marker w k p c hff hz]
        right
        rfl
    · rw [jpegSlowLoop_succ_normal w k p c hff]
      rcases ih (p + 1) (c.push (w.getD p 0) 8) with h | h
      · left
        rw [h]
        simp only [BitStreamerCache.push]
        omega
      · right
        exact h

/-- The loop preserves the cache invariant. -/
theorem jpegSlowLoop_inv (w : List Nat) (hw : ∀ j, w.getD j 0 < 256) :
    ∀ (i p : Nat) (c : BitStreamerCache), cacheInv c →
      c.fillLevel + 8 * i ≤ 64 → cacheInv (jpegSlowLoop w i c p).1 := by
  intro i
  induction i with
  | zero => intro p c hinv _; rw [jpegSlowLoop_zero]; exact hinv
  | succ k ih =>
    intro p c hinv hfl
    by_cases hff : w.getD p 0 = 0xFF
    · by_cases hz : w.getD (p + 1) 0 = 0x00
      · rw [jpegSlowLoop_succ_stuffed w k p c hff hz]
        exact ih (p + 2) _
          (cacheInv_push c 0xFF 8 hinv (by norm_num) (by omega))
          (by simp only [BitStreamerCache.push]; omega)
      · rw [jpegSlowLoop_succ_marker w k p c hff hz]
        exact cacheInv_jpegMarkerCache _
    · rw [jpegSlowLoop_succ_normal w k p c hff]
      exact ih (p + 1) _
        (cacheInv_push c _ 8 hinv (lt_of_lt_of_le (hw p) (by norm_num))
          (by omega))
        (by simp only [BitStreamerCache.push]; omega)

theorem getBE32_lt (w : List Nat) (hw : ∀ j, w.getD j 0 < 256) :
    getBE32 w < 2 ^ 32 := by
  have hb : ∀ x k : Nat, x < 256 → k ≤ 24 → x <<< k < 2 ^ 32 := by
    intro x k hx hk
    rw [Nat.shiftLeft_eq]
    calc x * 2 ^ k < 256 * 2 ^ k :=
        mul_lt_mul_of_pos_right hx (pow_pos (by norm_num) _)
      _ ≤ 256 * 2 ^ 24 := by
        apply Nat.mul_le_mul_left
        exact Nat.pow_le_pow_right (by norm_num) hk
      _ = 2 ^ 32 := by norm_num
  unfold getBE32
  apply Nat.or_lt_two_pow
  · apply Nat.or_lt_two_pow
    · apply Nat.or_lt_two_pow
      · exact hb _ _ (hw 0) (by norm_num)
      · exact hb _ _ (hw 1) (by norm_num)
    · exact hb _ _ (hw 2) (by norm_num)
  · exact lt_trans (hw 3) (by norm_num)

/-- Four single-byte pushes collapse into one 32-bit big-endian push. -/
theorem pushBytes4_eq_push32 (c : BitStreamerCache) (b0 b1 b2 b3 : Nat)
    (hfl : c.fillLevel + 32 ≤ 64) :
    c.pushBytes [b0, b1, b2, b3] =
      c.push (b0 <<< 24 ||| b1 <<< 16 ||| b2 <<< 8 ||| b3) 32 := by
  simp only [BitStreamerCache.pushBytes_cons, BitStreamerCache.pushBytes_nil]
  rw [BitStreamerCache.push_push c b0 8 b1 8 (by omega)]
  rw [BitStreamerCache.push_push c (b0 <<< 8 ||| b1) 16 b2 8 (by omega)]
  rw [BitStreamerCache.push_push c ((b0 <<< 8 ||| b1) <<< 8 ||| b2) 24 b3 8
    (by omega)]
  have e1 : (b0 <<< 8 ||| b1) <<< 8 = b0 <<< 16 ||| b1 <<< 8 := by
    rw [shiftLeft_lor_distrib, ← Nat.shiftLeft_add]
  have e2 : (b0 <<< 16 ||| b1 <<< 8 ||| b2) <<< 8 =
      b0 <<< 24 ||| b1 <<< 16 ||| b2 <<< 8 := by
    rw [shiftLeft_lor_distrib, shiftLeft_lor_distrib, ← Nat.shiftLeft_add,
      ← Nat.shiftLeft_add]
  rw [e1, e2]

theorem getD_lt_256_of_mem {l : List Nat} (h : ∀ b ∈ l, b < 256) (j : Nat) :
    l.getD j 0 < 256 := by
  rw [List.getD_eq_getElem?_getD]
  rcases hE : l[j]? with _ | b
  · simp
  · simp only [Option.getD_some]
    exact h b (List.getElem?_mem hE)

theorem jpegWindow_getD_lt (data : List Nat) (hdata : ∀ b ∈ data, b < 256)
    (pos : Nat) : ∀ j, (jpegWindow data pos).getD j 0 < 256 := by
  intro j
  apply getD_lt_256_of_mem _ j
  intro b hb
  exact hdata b (List.drop_subset _ _ (List.take_subset _ _ hb))

theorem jpegWindow_getD_eq (data : List Nat) (pos j : Nat) (hj : j < 8) :
    (jpegWindow data pos).getD j 0 = data.getD (pos + j) 0 := by
  simp only [jpegWindow, List.getD_eq_getElem?_getD]
  rw [List.getElem?_take_of_lt hj, List.getElem?_drop]

/-- When the loop stops at a marker within its four logical steps, some
byte among the first four window bytes is 0xFF, so the fast path is not
taken. -/
theorem jpegMarkerOffset_not_fast (w : List Nat) (m : Nat)
    (hm : jpegMarkerOffset w 4 0 = some m) :
    ¬ (w.getD 0 0 ≠ 0xFF ∧ w.getD 1 0 ≠ 0xFF ∧ w.getD 2 0 ≠ 0xFF ∧
      w.getD 3 0 ≠ 0xFF) := by
  rintro ⟨h0, h1, h2, h3⟩
  rw [jpegMarkerOffset_succ_normal w 3 0 h0,
    jpegMarkerOffset_succ_normal w 2 (0 + 1) (by simpa using h1),
    jpegMarkerOffset_succ_normal w 1 (0 + 1 + 1) (by simpa using h2),
    jpegMarkerOffset_succ_normal w 0 (0 + 1 + 1 + 1) (by simpa using h3),
    jpegMarkerOffset_zero] at hm
  exact absurd hm (by simp)

/-! ## Claims about the JPEG fillCache -/

/-- C3: for the JPEG-stuffed tag, a raw 0xFF immediately followed by
0x00 is one literal data byte 0xFF: a loop step on such a pair pushes
exactly 8 data bits of value 0xFF while consuming exactly 2 input bytes,
the stuffing 0x00 contributing no bits; consequently on a window
0xFF 0x00 b2 b3 b4 (b2, b3, b4 not 0xFF) fillCache pushes the data bytes
0xFF, b2, b3, b4 and consumes five input bytes. -/
theorem fillCacheJPEG_stuffing :
    (∀ (w : List Nat) (i p : Nat) (c : BitStreamerCache),
      w.getD p 0 = 0xFF → w.getD (p + 1) 0 = 0x00 →
      jpegSlowLoop w (i + 1) c p = jpegSlowLoop w i (c.push 0xFF 8) (p + 2)) ∧
    (∀ (b2 b3 b4 : Nat) (rest : List Nat) (c : BitStreamerCache),
      b2 ≠ 0xFF → b3 ≠ 0xFF → b4 ≠ 0xFF →
      fillCacheJPEG c (0xFF :: 0x00 :: b2 :: b3 :: b4 :: rest) =
        (c.pushBytes [0xFF, b2, b3, b4], 5)) := by
  constructor
  · exact fun w i p c h hz => jpegSlowLoop_succ_stuffed w i p c h hz
  · intro b2 b3 b4 rest c h2 h3 h4
    set w := 0xFF :: 0x00 :: b2 :: b3 :: b4 :: rest with hwdef
    have hw0 : w.getD 0 0 = 0xFF := rfl
    have hw1 : w.getD (0 + 1) 0 = 0x00 := rfl
    have hw2 : w.getD (0 + 2) 0 = b2 := rfl
    have hw3 : w.getD (0 + 2 + 1) 0 = b3 := rfl
    have hw4 : w.getD (0 + 2 + 1 + 1) 0 = b4 := rfl
    simp only [fillCacheJPEG]
    rw [if_neg (fun hcond => hcond.1 hw0)]
    rw [jpegSlowLoop_succ_stuffed w 3 0 c hw0 hw1,
      jpegSlowLoop_succ_normal w 2 (0 + 2) _ (by rw [hw2]; exact h2),
      jpegSlowLoop_succ_normal w 1 (0 + 2 + 1) _ (by rw [hw3]; exact h3),
      jpegSlowLoop_succ_normal w 0 (0 + 2 + 1 + 1) _ (by rw [hw4]; exact h4),
      jpegSlowLoop_zero, hw2, hw3, hw4]
    rfl

/-- Witness for C3: both parts at a concrete cache and window. -/
theorem fillCacheJPEG_stuffing_witness :
    jpegSlowLoop [0xFF, 0x00, 1, 2, 3, 0, 0, 0] (3 + 1) ⟨0, 0⟩ 0 =
      jpegSlowLoop [0xFF, 0x00, 1, 2, 3, 0, 0, 0] 3
        (BitStreamerCache.push ⟨0, 0⟩ 0xFF 8) (0 + 2) ∧
    fillCacheJPEG ⟨0, 0⟩ (0xFF :: 0x00 :: 1 :: 2 :: 3 :: [0, 0, 0]) =
      (BitStreamerCache.pushBytes ⟨0, 0⟩ [0xFF, 1, 2, 3], 5) :=
  ⟨fillCacheJPEG_stuffing.1 [0xFF, 0x00, 1, 2, 3, 0, 0, 0] 3 0 ⟨0, 0⟩
      (by decide) (by decide),
    fillCacheJPEG_stuffing.2 1 2 3 [0, 0, 0] ⟨0, 0⟩
      (by decide) (by decide) (by decide)⟩

/-- C5: for the JPEG-stuffed tag, when none of the next four raw bytes
is 0xFF, fillCache consumes exactly four bytes via a single 32-bit
big-endian load, and the byte-by-byte path produces exactly the same
cache state and consumed count on such a window: the fast path is
observationally equivalent to the slow path on 0xFF-free windows. -/
theorem fillCacheJPEG_fast_slow_agree (c : BitStreamerCache) (w : List Nat)
    (hfl : c.fillLevel ≤ 32)
    (h0 : w.getD 0 0 ≠ 0xFF) (h1 : w.getD 1 0 ≠ 0xFF)
    (h2 : w.getD 2 0 ≠ 0xFF) (h3 : w.getD 3 0 ≠ 0xFF) :
    fillCacheJPEG c w = (c.push (getBE32 w) 32, 4) ∧
    jpegSlowLoop w 4 c 0 = (c.push (getBE32 w) 32, 4) := by
  have hslow : jpegSlowLoop w 4 c 0 = (c.push (getBE32 w) 32, 4) := by
    rw [jpegSlowLoop_succ_normal w 3 0 c h0,
      jpegSlowLoop_succ_normal w 2 (0 + 1) _ (by simpa using h1),
      jpegSlowLoop_succ_normal w 1 (0 + 1 + 1) _ (by simpa using h2),
      jpegSlowLoop_succ_normal w 0 (0 + 1 + 1 + 1) _ (by simpa using h3),
      jpegSlowLoop_zero]
    have hcomp := pushBytes4_eq_push32 c (w.getD 0 0) (w.getD (0 + 1) 0)
      (w.getD (0 + 1 + 1) 0) (w.getD (0 + 1 + 1 + 1) 0) (by omega)
    simp only [BitStreamerCache.pushBytes_cons,
      BitStreamerCache.pushBytes_nil] at hcomp
    rw [hcomp]
    rfl
  refine ⟨?_, hslow⟩
  simp only [fillCacheJPEG]
  rw [if_pos ⟨h0, h1, h2, h3⟩]

/-- Witness for C5 at a concrete cache and 0xFF-free window. -/
theorem fillCacheJPEG_fast_slow_agree_witness :
    fillCacheJPEG ⟨0, 0⟩ [1, 2, 3, 4, 5, 6, 7, 8] =
      (BitStreamerCache.push ⟨0, 0⟩ (getBE32 [1, 2, 3, 4, 5, 6, 7, 8]) 32, 4) ∧
    jpegSlowLoop [1, 2, 3, 4, 5, 6, 7, 8] 4 ⟨0, 0⟩ 0 =
      (BitStreamerCache.push ⟨0, 0⟩ (getBE32 [1, 2, 3, 4, 5, 6, 7, 8]) 32, 4) :=
  fillCacheJPEG_fast_slow_agree ⟨0, 0⟩ [1, 2, 3, 4, 5, 6, 7, 8]
    (by decide) (by decide) (by decide) (by decide) (by decide)

/-- C6: the cache invariant (every register bit beyond fillLevel is
zero) is preserved by fillCache, including the marker-rewind branch that
directly manipulates cache.fillLevel and masks cache.cache. -/
theorem fillCacheJPEG_cacheInv (c : BitStreamerCache) (w : List Nat)
    (hinv : cacheInv c) (hfl : c.fillLevel ≤ 32)
    (hw : ∀ j, w.getD j 0 < 256) :
    cacheInv (fillCacheJPEG c w).1 := by
  simp only [fillCacheJPEG]
  split
  · exact cacheInv_push c _ 32 hinv (getBE32_lt w hw) (by omega)
  · exact jpegSlowLoop_inv w hw 4 0 c hinv (by omega)

/-- Witness for C6: the invariant holds after a fill that hits a marker
(the marker-rewind branch) at a concrete input. -/
theorem fillCacheJPEG_cacheInv_witness :
    cacheInv (fillCacheJPEG ⟨0, 0⟩ [0xAB, 0xFF, 0xD9, 0, 0, 0, 0, 0]).1 :=
  fillCacheJPEG_cacheInv ⟨0, 0⟩ [0xAB, 0xFF, 0xD9, 0, 0, 0, 0, 0]
    (by decide) (by decide) (getD_lt_256_of_mem (by decide))

theorem jpegSlowLoop_ret_zero (w : List Nat) (i : Nat) (c : BitStreamerCache)
    (h : (jpegSlowLoop w (i + 1) c 0).2 = 0) :
    (jpegSlowLoop w (i + 1) c 0).1.fillLevel = 64 := by
  by_cases hff : w.getD 0 0 = 0xFF
  · by_cases hz : w.getD (0 + 1) 0 = 0x00
    · rw [jpegSlowLoop_succ_stuffed w i 0 c hff hz] at h
      have := jpegSlowLoop_pos_ge w i (0 + 2) (c.push 0xFF 8)
      omega
    · rw [jpegSlowLoop_succ_marker w i 0 c hff hz]
      rfl
  · rw [jpegSlowLoop_succ_normal w i 0 c hff] at h
    have := jpegSlowLoop_pos_ge w i (0 + 1) (c.push (w.getD 0 0) 8)
    omega

/-- C10: fillCache returns a consumed-byte count between 0 and 8 and
either adds exactly 32 bits to the cache or leaves it completely full
(64 bits); in particular when 0 bytes are consumed the cache is full,
and at least 32 valid bits are always available afterwards, so an
enclosing fill(n) with n ≤ 32 terminates after one fillCache call
without further consumption. -/
theorem fillCacheJPEG_progress (c : BitStreamerCache) (w : List Nat)
    (hfl : c.fillLevel ≤ 32) :
    (fillCacheJPEG c w).2 ≤ 8 ∧
    ((fillCacheJPEG c w).1.fillLevel = c.fillLevel + 32 ∨
      (fillCacheJPEG c w).1.fillLevel = 64) ∧
    32 ≤ (fillCacheJPEG c w).1.fillLevel ∧
    ((fillCacheJPEG c w).2 = 0 → (fillCacheJPEG c w).1.fillLevel = 64) := by
  simp only [fillCacheJPEG]
  split
  · refine ⟨by norm_num, Or.inl rfl, ?_, ?_⟩
    · show 32 ≤ (c.push (getBE32 w) 32).fillLevel
      simp only [BitStreamerCache.push]
      omega
    · intro h
      simp at h
  · have hle := jpegSlowLoop_pos_le w 4 0 c
    have hor := jpegSlowLoop_fillLevel_or w 4 0 c
    refine ⟨by omega, ?_, ?_, ?_⟩
    · rcases hor with h | h
      · left; omega
      · right; omega
    · rcases hor with h | h <;> omega
    · intro h
      exact jpegSlowLoop_ret_zero w 3 c h

/-- Witness for C10 at a concrete cache and window with a marker at the
first byte: zero bytes consumed, cache left full. -/
theorem fillCacheJPEG_progress_witness :
    (fillCacheJPEG ⟨0, 0⟩ [0xFF, 0xD9, 0, 0, 0, 0, 0, 0]).2 ≤ 8 ∧
    ((fillCacheJPEG ⟨0, 0⟩ [0xFF, 0xD9, 0, 0, 0, 0, 0, 0]).1.fillLevel =
        BitStreamerCache.fillLevel ⟨0, 0⟩ + 32 ∨
      (fillCacheJPEG ⟨0, 0⟩ [0xFF, 0xD9, 0, 0, 0, 0, 0, 0]).1.fillLevel = 64) ∧
    32 ≤ (fillCacheJPEG ⟨0, 0⟩ [0xFF, 0xD9, 0, 0, 0, 0, 0, 0]).1.fillLevel ∧
    ((fillCacheJPEG ⟨0, 0⟩ [0xFF, 0xD9, 0, 0, 0, 0, 0, 0]).2 = 0 →
      (fillCacheJPEG ⟨0, 0⟩ [0xFF, 0xD9, 0, 0, 0, 0, 0, 0]).1.fillLevel = 64) :=
  fillCacheJPEG_progress ⟨0, 0⟩ [0xFF, 0xD9, 0, 0, 0, 0, 0, 0] (by decide)

/-- C2: for the JPEG-stuffed tag, when fillCache meets 0xFF followed by
a non-zero byte, it removes the just-pushed 0xFF (the resulting register
holds exactly the bytes decoded before the marker), zero-fills the cache
up to the full 64 bits, and stops without consuming the 0xFF or any byte
after it: getStreamPosition then equals the byte offset of the 0xFF
marker introducer, and every cache bit beyond the legitimately decoded
bits reads as zero. -/
theorem fillCacheJPEG_marker_boundary (data : List Nat)
    (s : BitStreamerJPEGState) (m : Nat)
    (hinv : cacheInv s.cache) (hfl : s.cache.fillLevel ≤ 32)
    (hdata : ∀ b ∈ data, b < 256)
    (hm : jpegMarkerOffset (jpegWindow data s.pos) 4 0 = some m) :
    fillJPEG data s =
      ⟨s.pos + m,
        ⟨(s.cache.pushBytes (jpegDataBytes (jpegWindow data s.pos) 4 0)).cache,
          64⟩⟩ ∧
    (fillJPEG data s).getStreamPosition = s.pos + m ∧
    data.getD (s.pos + m) 0 = 0xFF ∧
    data.getD (s.pos + m + 1) 0 ≠ 0 ∧
    (∀ i, i < 64 - (s.cache.fillLevel +
        8 * (jpegDataBytes (jpegWindow data s.pos) 4 0).length) →
      ((fillJPEG data s).cache.cache).testBit i = false) := by
  set w := jpegWindow data s.pos with hwdef
  have hw : ∀ j, w.getD j 0 < 256 := jpegWindow_getD_lt data hdata s.pos
  obtain ⟨hm0, hm6, hmff, hmnz⟩ := jpegMarkerOffset_spec w 4 0 m hm
  have hfill : fillCacheJPEG s.cache w =
      (⟨(s.cache.pushBytes (jpegDataBytes w 4 0)).cache, 64⟩, m) := by
    simp only [fillCacheJPEG]
    rw [if_neg (jpegMarkerOffset_not_fast w m hm)]
    exact jpegSlowLoop_marker_eq w hw 4 0 s.cache m hinv (by omega) hm
  have hfj : fillJPEG data s =
      ⟨s.pos + m, ⟨(s.cache.pushBytes (jpegDataBytes w 4 0)).cache, 64⟩⟩ := by
    simp only [fillJPEG, ← hwdef, hfill]
  have hdatabyte : data.getD (s.pos + m) 0 = 0xFF := by
    rw [← jpegWindow_getD_eq data s.pos m (by omega), ← hwdef]
    exact hmff
  have hdatabyte2 : data.getD (s.pos + m + 1) 0 ≠ 0 := by
    have he : s.pos + m + 1 = s.pos + (m + 1) := by omega
    rw [he, ← jpegWindow_getD_eq data s.pos (m + 1) (by omega), ← hwdef]
    exact hmnz
  refine ⟨hfj, ?_, hdatabyte, hdatabyte2, ?_⟩
  · rw [hfj]
    rfl
  · intro i hi
    rw [hfj]
    have hinv2 : cacheInv (s.cache.pushBytes (jpegDataBytes w 4 0)) :=
      cacheInv_pushBytes _ _ hinv (jpegDataBytes_lt_256 w hw 4 0)
        (by have := jpegDataBytes_length_le w 4 0; omega)
    have hflv := BitStreamerCache.pushBytes_fillLevel (jpegDataBytes w 4 0)
      s.cache
    exact hinv2.2.2 i (by omega)

/-- Witness for C2: a concrete stream whose entropy-coded data ends at a
marker after one data byte. -/
theorem fillCacheJPEG_marker_boundary_witness :
    fillJPEG [0xAB, 0xFF, 0xD9, 0, 0, 0, 0, 0] ⟨0, ⟨0, 0⟩⟩ =
      ⟨0 + 1,
        ⟨(BitStreamerCache.pushBytes ⟨0, 0⟩
            (jpegDataBytes (jpegWindow [0xAB, 0xFF, 0xD9, 0, 0, 0, 0, 0] 0)
              4 0)).cache, 64⟩⟩ ∧
    (fillJPEG [0xAB, 0xFF, 0xD9, 0, 0, 0, 0, 0]
        ⟨0, ⟨0, 0⟩⟩).getStreamPosition = 0 + 1 ∧
    List.getD [0xAB, 0xFF, 0xD9, 0, 0, 0, 0, 0] (0 + 1) 0 = 0xFF ∧
    List.getD [0xAB, 0xFF, 0xD9, 0, 0, 0, 0, 0] (0 + 1 + 1) 0 ≠ 0 ∧
    (∀ i, i < 64 - (BitStreamerCache.fillLevel ⟨0, 0⟩ +
        8 * (jpegDataBytes (jpegWindow [0xAB, 0xFF, 0xD9, 0, 0, 0, 0, 0] 0)
          4 0).length) →
      ((fillJPEG [0xAB, 0xFF, 0xD9, 0, 0, 0, 0, 0]
        ⟨0, ⟨0, 0⟩⟩).cache.cache).testBit i = false) :=
  fillCacheJPEG_marker_boundary [0xAB, 0xFF, 0xD9, 0, 0, 0, 0, 0]
    ⟨0, ⟨0, 0⟩⟩ 1 (by decide) (by decide) (by decide) (by decide)

/-! ## OrfDecoder strip validation

Translated from decoders/OrfDecoder.cpp, OrfDecoder::decodeRawInternal:
the validation sequence up to the point where a decompressor (and, in
it, a bit streamer) is constructed over the strip byte range.  The
ThrowRDE error messages are represented by an error type.  The strip
byte counts are uint32 TIFF values and the accumulator `size` is a
uint32, so the summation wraps modulo 2^32.  Buffer::isValid is
modelled from the spec (the container rejects a declared range that
exceeds the actual buffer size); it compares without overflow. -/

/-- The TIFF-level inputs that decodeRawInternal inspects before
handing a byte range to a decompressor. -/
structure OrfParams where
  compression : Nat
  offsetsCount : Nat
  counts : List Nat
  off : Nat
  fileSize : Nat
  width : Nat
  height : Nat
deriving DecidableEq

/-- The ThrowRDE failures of decodeRawInternal, in source order. -/
inductive OrfError
  | unsupportedCompression
  | stripCountMismatch
  | truncatedFile
  | unexpectedDimensions
deriving DecidableEq

/-- The uint32 accumulation of the declared strip byte counts: the
accumulator is a uint32, so each addition wraps modulo 2^32. -/
def orfStripSize (counts : List Nat) : Nat :=
  counts.foldl (fun a c => (a + c) % 2 ^ 32) 0

/-- Modelled from the spec: Buffer::isValid(offset, count) checks that
the declared range lies inside the actual buffer, compared without
overflow. -/
def bufferIsValid (fileSize off size : Nat) : Bool := off + size ≤ fileSize

/-- The validation control flow of OrfDecoder::decodeRawInternal, up to
the construction of the decompressor: an error, or the byte range
(offset, size) over which the decompressor and its bit streamer are
constructed. -/
def orfDecodeRaw (p : OrfParams) : Except OrfError (Nat × Nat) :=
  if p.compression ≠ 1 then .error .unsupportedCompression
  else if p.counts.length ≠ p.offsetsCount then .error .stripCountMismatch
  else
    let size := orfStripSize p.counts
    if ¬ bufferIsValid p.fileSize p.off size then .error .truncatedFile
    else if p.width = 0 ∨ p.height = 0 ∨ p.width % 2 ≠ 0 ∨ p.width > 9280 ∨
        p.height > 6932 then
      .error .unexpectedDimensions
    else .ok (p.off, size)

/-- C9 counterexample: two strip byte counts of 2^31 each, declared at
offset 0 of a 10-byte file.  The mathematical sum 2^32 does not fit in
the buffer, yet the uint32 accumulator wraps to 0, Buffer::isValid
passes, and decoding proceeds to the decompressor without any
"Truncated file" error. -/
theorem orfDecodeRaw_truncation_counterexample :
    (10 : Nat) <
      0 + ([2 ^ 31, 2 ^ 31] : List Nat).sum ∧
    orfDecodeRaw ⟨1, 2, [2 ^ 31, 2 ^ 31], 0, 10, 100, 100⟩ ≠
      .error .truncatedFile ∧
    orfDecodeRaw ⟨1, 2, [2 ^ 31, 2 ^ 31], 0, 10, 100, 100⟩ = .ok (0, 0) := by
  refine ⟨by norm_num, ?_, rfl⟩
  intro h
  rw [show orfDecodeRaw ⟨1, 2, [2 ^ 31, 2 ^ 31], 0, 10, 100, 100⟩ =
    .ok (0, 0) from rfl] at h
  cases h

/-- C9 (amended): with the strip size computed as the code computes it
(the uint32-wrapped sum of the declared counts), a declared range that
does not fit in the file buffer is rejected with the "Truncated file"
error before any decompressor is constructed, for inputs passing the
earlier compression and strip-count checks; and whenever validation
passes, the range handed to the decompressor satisfies
off + size ≤ fileSize, so no streamer is constructed over an
under-sized range. -/
theorem orfDecodeRaw_truncation :
    (∀ p : OrfParams, p.compression = 1 →
      p.counts.length = p.offsetsCount →
      p.fileSize < p.off + orfStripSize p.counts →
      orfDecodeRaw p = .error .truncatedFile) ∧
    (∀ (p : OrfParams) (r : Nat × Nat), orfDecodeRaw p = .ok r →
      r.1 + r.2 ≤ p.fileSize) := by
  constructor
  · intro p hc hn h
    simp only [orfDecodeRaw]
    rw [if_neg (by simp [hc]), if_neg (by simp [hn]),
      if_pos (by simp [bufferIsValid]; omega)]
  · intro p r h
    simp only [orfDecodeRaw] at h
    split at h
    · exact absurd h (by simp)
    · split at h
      · exact absurd h (by simp)
      · split at h
        · exact absurd h (by simp)
        · split at h
          · exact absurd h (by simp)
          · rename_i hvalid _
            cases h
            simp only [bufferIsValid, not_not, decide_eq_true_eq] at hvalid
            exact hvalid

/-- Witness for the amended C9: a truncated declaration is rejected,
and an accepted range fits in the buffer. -/
theorem orfDecodeRaw_truncation_witness :
    orfDecodeRaw ⟨1, 1, [20], 5, 10, 100, 100⟩ = .error .truncatedFile ∧
    ((4 : Nat), (6 : Nat)).1 + ((4 : Nat), (6 : Nat)).2 ≤
      (⟨1, 1, [6], 4, 10, 100, 100⟩ : OrfParams).fileSize :=
  ⟨orfDecodeRaw_truncation.1 ⟨1, 1, [20], 5, 10, 100, 100⟩
      (by decide) (by decide) (by decide),
    orfDecodeRaw_truncation.2 ⟨1, 1, [6], 4, 10, 100, 100⟩ (4, 6) rfl⟩

end Rawspeed
